import Mathlib

/-!
# Verification of the `parry` shell-parameter expansion engine

A shallow embedding, over `List Char`, of the core of the `parry`
repository (package `lib`): quote tokenization (`tokenizeByQuotes`),
valid-region computation (`getValidSlices`), parameter discovery
(`findParams`), default-operator resolution (`handleDefaults`,
`parseParam`, `parseEmbeddedParams`), quote/escape normalization
(`escapeLiteralDollars`, `quoteHandler`, `escapeHandler`,
`parserHandler`), value-map construction (`mapParamValues`),
env-assignment ingestion (`setEnv`) and document expansion
(`GetOutput`'s pure output computation).

The Go code drives everything through `regexp2` (.NET-flavoured)
patterns.  The embedding replaces each regular expression by the
deterministic character-level scan it denotes: leftmost match, ordered
alternation, lazy/greedy quantifier behaviour and the even-backslash
look-behind `(?<=(?:[^\\]|^)(?:[\\]{2})*)` are spelled out as explicit
index arithmetic.  Go panics become `Except` errors.  All recursions
are structural (on an explicit fuel that is always instantiated large
enough), so every definition evaluates by `decide`/`rfl`.
-/

namespace Parry

/-- The three kinds of text span produced by the quote tokenizer
(Go `SegmentType`: `unQuoted`, `singleQuoted`, `doubleQuoted`). -/
inductive SegmentType where
  | unQuoted
  | singleQuoted
  | doubleQuoted
deriving DecidableEq, Repr

export SegmentType (unQuoted singleQuoted doubleQuoted)

/-- A typed span of the input text (Go `Segment`, whose `Position` is the
half-open index pair `[start, stop)`). -/
structure Segment where
  Position : Nat × Nat
  SegmentType : SegmentType
deriving DecidableEq, Repr

/-- A discovered parameter reference (Go `Param`): the exact matched text
and its half-open span in the original text. -/
structure Param where
  Id : List Char
  Position : Nat × Nat
deriving DecidableEq, Repr

/-- Go `AssocArray` (`map[string]string`), kept as an association list;
the Go loop inserts a key at most once, so first-match lookup agrees
with the Go map. -/
abbrev AssocArray := List (List Char × List Char)

/-- The process environment, abstracted to a key/value list.
`os.LookupEnv` is first-match lookup, `os.Setenv` prepends. -/
abbrev Env := List (List Char × List Char)

/-- `os.LookupEnv`: the value and whether the variable is set. -/
def lookupEnv (env : Env) (name : List Char) : List Char × Bool :=
  match env.find? (fun kv => kv.1 = name) with
  | some kv => (kv.2, true)
  | none => ([], false)

/-- `os.Getenv`: the empty string when unset. -/
def getenv (env : Env) (name : List Char) : List Char :=
  (lookupEnv env name).1

/-- Character at an index, `none` past the end. -/
def charAt (s : List Char) (i : Nat) : Option Char :=
  s[i]?

/-- The half-open slice `s[a:b]` of the rune array. -/
def listSlice (s : List Char) (a b : Nat) : List Char :=
  (s.drop a).take (b - a)

/-- Number of consecutive backslashes in `s` ending immediately before
index `i` — the quantity the Go look-behind
`(?<=(?:[^\\]|^)(?:[\\]{2})*)` counts. -/
def bsCountBefore (s : List Char) : Nat → Nat
  | 0 => 0
  | i + 1 => if charAt s i = some '\\' then bsCountBefore s i + 1 else 0

/-- A position is "unescaped" when it is preceded by an even run of
backslashes (Go `unescapedToken`). -/
def unescapedAt (s : List Char) (i : Nat) : Bool :=
  bsCountBefore s i % 2 = 0

/-- First index `k ≥ i` with `f k = some a`, scanning at most `fuel`
positions: the deterministic core of regexp2's leftmost-match scan. -/
def scanFirst {α : Type} (f : Nat → Option α) : Nat → Nat → Option (Nat × α)
  | 0, _ => none
  | fuel + 1, i =>
    match f i with
    | some a => some (i, a)
    | none => scanFirst f fuel (i + 1)

/-- First index `k ≥ j` holding character `c` (the lazy `[^]*?c` step of
the quote tokenizer; any character, escaped or not, closes). -/
def findCharFrom (s : List Char) (j : Nat) (c : Char) : Option Nat :=
  (scanFirst (fun k => if charAt s k = some c then some () else none)
    (s.length - j) j).map (·.1)

/-- First index `k ≥ j` holding an unescaped double quote
(Go `unescapedDoubleQuote`). -/
def findUnescDoubleFrom (s : List Char) (j : Nat) : Option Nat :=
  (scanFirst
    (fun k =>
      if charAt s k = some '"' ∧ unescapedAt s k then some () else none)
    (s.length - j) j).map (·.1)

/-- One attempt of `quoteTokenizerPattern` anchored at `i`: a
single-quoted run starts at an unescaped `'` and ends at the next `'`
(escaped or not — per the source comment, escape sequences are not
evaluated for string literals); a double-quoted run starts and ends at
unescaped `"`.  Returns the exclusive end and the segment type. -/
def quoteMatchAt (s : List Char) (i : Nat) : Option (Nat × SegmentType) :=
  if charAt s i = some '\'' ∧ unescapedAt s i then
    (findCharFrom s (i + 1) '\'').map (fun k => (k + 1, singleQuoted))
  else if charAt s i = some '"' ∧ unescapedAt s i then
    (findUnescDoubleFrom s (i + 1)).map (fun k => (k + 1, doubleQuoted))
  else
    none

/-- Leftmost quoted run starting at or after `i`
(`re.FindRunesMatch` / `re.FindNextMatch` on `quoteTokenizerPattern`). -/
def findQuote (s : List Char) (i : Nat) : Option (Nat × Nat × SegmentType) :=
  (scanFirst (quoteMatchAt s) (s.length - i) i).map
    (fun r => (r.1, r.2.1, r.2.2))

/-- The loop body of Go `tokenizeByQuotes`: emit the unquoted gap before
the next quoted run (when non-empty), the quoted run itself, and recurse
from its end; the final tail becomes one unquoted segment. -/
def tokenizeFrom (s : List Char) : Nat → Nat → List Segment
  | 0, i =>
    if i = s.length then [] else [⟨(i, s.length), unQuoted⟩]
  | fuel + 1, i =>
    match findQuote s i with
    | none => if i = s.length then [] else [⟨(i, s.length), unQuoted⟩]
    | some (p, e, t) =>
      (if i = p then [] else [⟨(i, p), unQuoted⟩]) ++
        ⟨(p, e), t⟩ :: tokenizeFrom s fuel e

/-- Go `tokenizeByQuotes`. -/
def tokenizeByQuotes (s : List Char) : List Segment :=
  tokenizeFrom s (s.length + 1) 0

/-- Go `InRange`: `slice[0] <= i < slice[1]`. -/
def InRange (i : Nat) (slice : Nat × Nat) : Bool :=
  decide (slice.1 ≤ i) && decide (i < slice.2)

/-- The loop of Go `getValidSlices`, with the mutable "last appended
slice" made an explicit accumulator: single-quoted segments are skipped,
a kept segment extends the previous kept slice when adjacent
(`valid[last][1] == segment.Position[0]`) and starts a fresh slice
otherwise. -/
def gvsAux : List Segment → Option (Nat × Nat) → List (Nat × Nat)
  | [], none => []
  | [], some r => [r]
  | seg :: rest, none =>
    if seg.SegmentType = singleQuoted then gvsAux rest none
    else gvsAux rest (some seg.Position)
  | seg :: rest, some (lo, hi) =>
    if seg.SegmentType = singleQuoted then gvsAux rest (some (lo, hi))
    else if hi = seg.Position.1 then gvsAux rest (some (lo, seg.Position.2))
    else (lo, hi) :: gvsAux rest (some seg.Position)

/-- Go `getValidSlices`. -/
def getValidSlices (segments : List Segment) : List (Nat × Nat) :=
  gvsAux segments none

/-! ## The parameter finder (`paramFinderPattern`)

`paramFinderPattern` is
`unesc\$(?<bare>NAME) | unesc\$\{(?<braced>NAME)(content)*\}`
where `content` is, in alternation order, a depth-incrementing
`unesc${NAME`, an unescaped `$` not followed by `{`, any character other
than `$`/`}`, an unescaped `\$` pair, or a depth-decrementing `}`; the
final `}` may only be taken at depth zero.  The deterministic scan below
reproduces the backtracking outcomes of that pattern: the choices are
disjoint except for `\` before `$`, where consuming `\` alone provably
dead-ends, so the pair is consumed together. -/

/-- `[A-Za-z_]`. -/
def isNameStart (c : Char) : Bool :=
  c.isAlpha || c = '_'

/-- `[A-Za-z0-9_]`. -/
def isNameChar (c : Char) : Bool :=
  c.isAlpha || c.isDigit || c = '_'

/-- Number of consecutive positions from `i` satisfying `f`. -/
def countWhile (f : Nat → Bool) : Nat → Nat → Nat
  | 0, _ => 0
  | fuel + 1, i => if f i then countWhile f fuel (i + 1) + 1 else 0

/-- Length of the greedy `[A-Za-z_][A-Za-z0-9_]*` run at `i`
(0 when no name starts there). -/
def nameLenAt (s : List Char) (i : Nat) : Nat :=
  match charAt s i with
  | some c =>
    if isNameStart c then
      1 + countWhile
        (fun k => match charAt s k with
          | some d => isNameChar d
          | none => false)
        (s.length - (i + 1)) (i + 1)
    else 0
  | none => 0

/-- Balanced-brace content scan of `bracedParam`, positioned just after
`${NAME`, at depth `d`; returns the exclusive end of the whole braced
reference (one past the `}` closing depth zero). -/
def scanBraced (s : List Char) : Nat → Nat → Nat → Option Nat
  | 0, _, _ => none
  | fuel + 1, p, d =>
    match charAt s p with
    | none => none
    | some c =>
      if c = '}' then
        if d = 0 then some (p + 1) else scanBraced s fuel (p + 1) (d - 1)
      else if c = '$' then
        if unescapedAt s p then
          if charAt s (p + 1) = some '{' then
            match nameLenAt s (p + 2) with
            | 0 => none
            | n + 1 => scanBraced s fuel (p + 2 + (n + 1)) (d + 1)
          else scanBraced s fuel (p + 1) d
        else none
      else if c = '\\' ∧ unescapedAt s p ∧ charAt s (p + 1) = some '$' then
        scanBraced s fuel (p + 2) d
      else scanBraced s fuel (p + 1) d

/-- The two alternatives of a finder match. -/
inductive MatchKind where
  | bare (name : List Char)
  | braced (name : List Char)
deriving DecidableEq, Repr

/-- One attempt of `paramFinderPattern` anchored at `i`: the `bare`
alternative first, then the braced one.  Returns the exclusive end and
the kind, with the captured name. -/
def paramMatchAt (s : List Char) (i : Nat) : Option (Nat × MatchKind) :=
  if charAt s i = some '$' ∧ unescapedAt s i then
    match nameLenAt s (i + 1) with
    | n + 1 => some (i + 1 + (n + 1), .bare (listSlice s (i + 1) (i + 1 + (n + 1))))
    | 0 =>
      if charAt s (i + 1) = some '{' then
        match nameLenAt s (i + 2) with
        | 0 => none
        | n + 1 =>
          (scanBraced s s.length (i + 2 + (n + 1)) 0).map
            (fun e => (e, .braced (listSlice s (i + 2) (i + 2 + (n + 1)))))
      else none
  else none

/-- Leftmost finder match starting at or after `i`
(`paramFinderRegex.FindStringMatch` / `FindNextMatch`):
`(start, stop, kind)`. -/
def findParamFrom (s : List Char) (i : Nat) : Option (Nat × Nat × MatchKind) :=
  (scanFirst (paramMatchAt s) (s.length - i) i).map
    (fun r => (r.1, r.2.1, r.2.2))

/-- All finder matches, left to right, each search resuming at the
previous match's end (the scan of Go `MatchesToIndices` and of
`ReplaceFunc`). -/
def findAllParamsFrom (s : List Char) : Nat → Nat → List (Nat × Nat × MatchKind)
  | 0, _ => []
  | fuel + 1, i =>
    match findParamFrom s i with
    | none => []
    | some (st, stop, k) => (st, stop, k) :: findAllParamsFrom s fuel stop

/-- All finder matches of the whole text. -/
def findAllParams (s : List Char) : List (Nat × Nat × MatchKind) :=
  findAllParamsFrom s (s.length + 1) 0

/-- Go `findParams`: keep each finder match whose start index lies in
some valid slice. -/
def findParams (payload : List Char) (validSlices : List (Nat × Nat)) :
    List Param :=
  (findAllParams payload).filterMap
    (fun m =>
      if validSlices.any (fun slice => InRange m.1 slice) then
        some ⟨listSlice payload m.1 m.2.1, (m.1, m.2.1)⟩
      else none)

/-! ## The parameter parser (`paramParserPattern`)

`paramParserPattern` is
`\$\{NAME(?<expansion>(?<defaults>(:?[-+?])(?<defaultsValue>.*?)))?\}$`,
matched (unanchored at the left) against the text of one finder match.
`.*?` does not cross a newline and `$` accepts the end of the string or
a final newline.  Greedy-name backtracking never helps (a shortened name
exposes a name character, which is neither an operator nor `}`), so the
scan below is deterministic. -/

/-- The .NET `$` anchor: end of string, or just before a final `'\n'`. -/
def endAnchorAt (t : List Char) (pos : Nat) : Bool :=
  pos = t.length ∨ (pos + 1 = t.length ∧ charAt t pos = some '\n')

/-- `-`, `+` or `?`. -/
def isOpChar (c : Char) : Bool :=
  c = '-' || c = '+' || c = '?'

/-- The lazy `(?<defaultsValue>.*?)\}$` step from `vstart`: the default
text runs to the first `}` that sits at the anchor, and may not contain
a newline. -/
def parserDefaultsAt (t : List Char) (vstart : Nat) : Option (List Char) :=
  let stopAt := (findCharFrom t vstart '\n').getD t.length
  (scanFirst
    (fun e =>
      if e < stopAt ∧ charAt t e = some '}' ∧ endAnchorAt t (e + 1) then
        some () else none)
    (stopAt + 1 - vstart) vstart).map (fun r => listSlice t vstart r.1)

/-- One attempt of `paramParserPattern` at `q`.  `none`: no match here;
`some none`: a match whose optional `expansion` group is empty
(`defaults` has length 0); `some (some (op, dv))`: a match carrying the
`defaultsOperation` and `defaultsValue` captures. -/
def parserMatchAt (t : List Char) (q : Nat) :
    Option (Option (List Char × List Char)) :=
  if charAt t q = some '$' ∧ charAt t (q + 1) = some '{' then
    match nameLenAt t (q + 2) with
    | 0 => none
    | n + 1 =>
      let p0 := q + 2 + (n + 1)
      if charAt t p0 = some ':' ∧
          (charAt t (p0 + 1)).any isOpChar then
        (parserDefaultsAt t (p0 + 2)).map
          (fun dv => some (listSlice t p0 (p0 + 2), dv))
      else if (charAt t p0).any isOpChar then
        (parserDefaultsAt t (p0 + 1)).map
          (fun dv => some (listSlice t p0 (p0 + 1), dv))
      else if charAt t p0 = some '}' ∧ endAnchorAt t (p0 + 1) then
        some none
      else none
  else none

/-- Leftmost `paramParserPattern` match
(`paramParserRegex.FindStringMatch`). -/
def parserFind (t : List Char) : Option (Option (List Char × List Char)) :=
  (scanFirst (parserMatchAt t) t.length 0).map (·.2)

/-- Go `handleDefaults`: look the parameter up, decide from the operator
(the `defaultsOperation` capture) whether the current value is used
(`resolved`) and whether resolution must fail (`failing`). -/
def handleDefaults (env : Env) (operation : List Char) (param : List Char) :
    List Char × Bool × Bool :=
  let (value, isSet) := lookupEnv env param
  let emptyEqualsUnset := operation.head? = some ':'
  match operation.getLast? with
  | some '-' =>
    if (value.length = 0 ∧ emptyEqualsUnset) ∨ ¬isSet then (value, false, false)
    else (value, true, false)
  | some '+' =>
    if value.length > 0 ∨ (isSet ∧ ¬emptyEqualsUnset) then (value, false, false)
    else (value, true, false)
  | some '?' =>
    if (value.length = 0 ∧ emptyEqualsUnset) ∨ ¬isSet then (value, false, true)
    else (value, true, false)
  | _ => (value, true, false)

/-- Go `parseEmbeddedParams` generically in the recursive resolver: every
finder match inside `s` is replaced by its resolution
(`ReplaceFunc(value, embeddedParser, -1, -1)`); a panic inside any
replacement propagates. -/
def parseEmbeddedRepl
    (recurse : List Char → Except (List Char) (List Char))
    (s : List Char) : Except (List Char) (List Char) := do
  let r ← (findAllParams s).foldlM
    (fun (acc : List Char × Nat) m => do
      let v ← recurse (listSlice s m.1 m.2.1)
      pure (acc.1 ++ listSlice s acc.2 m.1 ++ v, m.2.1))
    (([], 0) : List Char × Nat)
  pure (r.1 ++ s.drop r.2)

/-- The value a single finder match resolves to (the `value` variable of
Go `parseParam`): a bare match reads the environment; a braced match
consults `paramParserPattern` on the matched text — when a default
operator is present, `handleDefaults` decides between the current value
and the recursively resolved default text, and the error family turns
that text into a failure (`panic(value)`). -/
def resolveFound (env : Env)
    (recurse : List Char → Except (List Char) (List Char))
    (s : List Char) (st stop : Nat) :
    MatchKind → Except (List Char) (List Char)
  | .bare name => .ok (getenv env name)
  | .braced name =>
    match parserFind (listSlice s st stop) with
    | some (some (op, dv)) =>
      let r := handleDefaults env op name
      match
        (if r.2.1 then Except.ok r.1 else parseEmbeddedRepl recurse dv) with
      | .error e => .error e
      | .ok value => if r.2.2 then .error value else .ok value
    | _ => .ok (getenv env name)

/-- Go `parseParam`, on explicit fuel (the Go recursion descends into
strictly shorter substrings, so `length + 1` fuel always suffices):
resolve the first finder match of `param`, splicing the scalar result
between the untouched prefix and suffix; a propagating failure inside
the resolution aborts the call. -/
def parseParamF (env : Env) : Nat → List Char → Except (List Char) (List Char)
  | 0, s => .ok s
  | n + 1, s =>
    match findParamFrom s 0 with
    | none => .ok s
    | some (st, stop, k) =>
      match resolveFound env (parseParamF env n) s st stop k with
      | .error e => .error e
      | .ok value => .ok (listSlice s 0 st ++ value ++ s.drop stop)

/-- Go `parseEmbeddedParams` (at the given fuel for its inner
`parseParam` calls). -/
def parseEmbeddedParams (env : Env) (n : Nat) (s : List Char) :
    Except (List Char) (List Char) :=
  parseEmbeddedRepl (parseParamF env n) s

/-- Go `parseParam` at its always-sufficient fuel. -/
def parseParam (env : Env) (s : List Char) : Except (List Char) (List Char) :=
  parseParamF env (s.length + 1) s

/-! ## The quote/escape normalizer -/

/-- Lookup in an `AssocArray` (Go map indexing). -/
def aaLookup (values : AssocArray) (k : List Char) : Option (List Char) :=
  (values.find? (fun kv => kv.1 = k)).map (·.2)

/-- Go `mapParamValues` with its invocation sequence made explicit: the
map under construction together with the list of reference texts the
parser is invoked on, in order.  The Go loop calls `parser(param.Id)`
exactly when `param.Id` is not yet a key. -/
def mapParamValuesAux (parser : List Char → List Char) :
    List Param → AssocArray → AssocArray × List (List Char)
  | [], values => (values, [])
  | p :: rest, values =>
    if (aaLookup values p.Id).isSome then mapParamValuesAux parser rest values
    else
      let r := mapParamValuesAux parser rest ((p.Id, parser p.Id) :: values)
      (r.1, p.Id :: r.2)

/-- Go `mapParamValues` (a pure `Parser`, as its Go type declares). -/
def mapParamValues (params : List Param) (parser : List Char → List Char) :
    AssocArray :=
  (mapParamValuesAux parser params []).1

/-- The reference texts `mapParamValues` invokes its parser on, in
invocation order. -/
def mapParamCalls (params : List Param)
    (parser : List Char → List Char) : List (List Char) :=
  (mapParamValuesAux parser params []).2

/-- Go `mapParamValues` for a parser that can panic (as `parseParam`
does): the first failing invocation aborts the construction. -/
def mapParamValuesE
    (parser : List Char → Except (List Char) (List Char)) :
    List Param → AssocArray → Except (List Char) AssocArray
  | [], values => .ok values
  | p :: rest, values =>
    if (aaLookup values p.Id).isSome then mapParamValuesE parser rest values
    else do
      let v ← parser p.Id
      mapParamValuesE parser rest ((p.Id, v) :: values)

/-- Go `mapperHandler`. -/
def mapperHandler (env : Env) (params : List Param) :
    Except (List Char) AssocArray :=
  mapParamValuesE (parseParam env) params []

/-- The output-composition loop of Go `GetOutput`: literal text between
references, each reference replaced by its value — or by its own text
when the value is empty under the preserve policy — and the tail after
the last reference. -/
def composeOutput (payload : List Char) (values : AssocArray)
    (preserve : Bool) : Nat → List Param → List Char
  | firstIndex, [] => payload.drop firstIndex
  | firstIndex, p :: rest =>
    listSlice payload firstIndex p.Position.1 ++
      (let v := (aaLookup values p.Id).getD []
       if v.length = 0 ∧ preserve then p.Id else v) ++
      composeOutput payload values preserve p.Position.2 rest

/-- The valid slices Go `GetOutput` scans: the whole text when quoting is
ignored, the quote-derived slices otherwise. -/
def validSlicesOf (ignoreQuotes : Bool) (payload : List Char) :
    List (Nat × Nat) :=
  if ignoreQuotes then [(0, payload.length)]
  else getValidSlices (tokenizeByQuotes payload)

/-- The document-expansion core of Go `GetOutput` (env files and
overrides already applied into `env`; the `list` mode is `listParams`):
what is written to the output stream, a panic aborting before anything
is written since the value map is completed first. -/
def GetOutput (env : Env) (payload : List Char)
    (preserve ignoreQuotes : Bool) : Except (List Char) (List Char) :=
  let params := findParams payload (validSlicesOf ignoreQuotes payload)
  if params.isEmpty then .ok payload
  else do
    let values ← mapperHandler env params
    .ok (composeOutput payload values preserve 0 params)

/-- Go `listParams`, reduced to the record list it serializes
(reference text and start index, in document order). -/
def listParams (params : List Param) : List (List Char × Nat) :=
  params.map (fun p => (p.Id, p.Position.1))

/-- Decidable equality for `Except`, used to evaluate resolution results
in concrete statements. -/
instance {ε α : Type} [DecidableEq ε] [DecidableEq α] :
    DecidableEq (Except ε α) := fun x y =>
  match x, y with
  | .ok a, .ok b =>
    if h : a = b then .isTrue (by rw [h])
    else .isFalse (by intro hc; cases hc; exact h rfl)
  | .error a, .error b =>
    if h : a = b then .isTrue (by rw [h])
    else .isFalse (by intro hc; cases hc; exact h rfl)
  | .ok _, .error _ => .isFalse (by intro hc; cases hc)
  | .error _, .ok _ => .isFalse (by intro hc; cases hc)

/-! ## Spec lemmas for the scanning primitives -/

theorem charAt_lt {s : List Char} {i : Nat} {c : Char}
    (h : charAt s i = some c) : i < s.length := by
  by_contra hge
  rw [charAt, List.getElem?_eq_none (by omega)] at h
  exact Option.noConfusion h

theorem scanFirst_some {α : Type} {f : Nat → Option α} :
    ∀ {fuel i j : Nat} {a : α}, scanFirst f fuel i = some (j, a) →
      i ≤ j ∧ j < i + fuel ∧ f j = some a ∧
        ∀ k, i ≤ k → k < j → f k = none := by
  intro fuel
  induction fuel with
  | zero => intro i j a h; simp [scanFirst] at h
  | succ n ih =>
    intro i j a h
    rw [scanFirst] at h
    cases hf : f i with
    | some b =>
      rw [hf] at h
      obtain ⟨rfl, rfl⟩ : i = j ∧ b = a := by
        constructor <;> cases h <;> rfl
      exact ⟨Nat.le_refl _, by omega, hf, fun k h1 h2 => by omega⟩
    | none =>
      rw [hf] at h
      obtain ⟨h1, h2, h3, h4⟩ := ih h
      refine ⟨by omega, by omega, h3, fun k hk1 hk2 => ?_⟩
      rcases Nat.eq_or_lt_of_le hk1 with rfl | hlt
      · exact hf
      · exact h4 k hlt hk2

theorem scanFirst_hit {α : Type} {f : Nat → Option α} {i fuel : Nat}
    {a : α} (h : f i = some a) (hf : 0 < fuel) :
    scanFirst f fuel i = some (i, a) := by
  cases fuel with
  | zero => omega
  | succ n => rw [scanFirst, h]

theorem findCharFrom_some {s : List Char} {j k : Nat} {c : Char}
    (h : findCharFrom s j c = some k) :
    j ≤ k ∧ k < s.length ∧ charAt s k = some c ∧
      ∀ m, j ≤ m → m < k → charAt s m ≠ some c := by
  rw [findCharFrom] at h
  cases hs : scanFirst
      (fun k => if charAt s k = some c then some () else none)
      (s.length - j) j with
  | none => rw [hs] at h; exact Option.noConfusion h
  | some r =>
    rw [hs] at h
    obtain ⟨h1, _, h3, h4⟩ := scanFirst_some hs
    cases h
    have hc : charAt s r.1 = some c := by
      by_cases hcc : charAt s r.1 = some c
      · exact hcc
      · rw [if_neg hcc] at h3; exact Option.noConfusion h3
    refine ⟨h1, charAt_lt hc, hc, fun m hm1 hm2 hmc => ?_⟩
    have := h4 m hm1 hm2
    rw [if_pos hmc] at this
    exact Option.noConfusion this

theorem findUnescDoubleFrom_some {s : List Char} {j k : Nat}
    (h : findUnescDoubleFrom s j = some k) : j ≤ k ∧ k < s.length := by
  rw [findUnescDoubleFrom] at h
  cases hs : scanFirst
      (fun k => if charAt s k = some '"' ∧ unescapedAt s k then some ()
        else none)
      (s.length - j) j with
  | none => rw [hs] at h; exact Option.noConfusion h
  | some r =>
    rw [hs] at h
    obtain ⟨h1, _, h3, _⟩ := scanFirst_some hs
    cases h
    by_cases hcc : charAt s r.1 = some '"' ∧ unescapedAt s r.1
    · exact ⟨h1, charAt_lt hcc.1⟩
    · rw [if_neg hcc] at h3; exact Option.noConfusion h3

theorem quoteMatchAt_some {s : List Char} {i e : Nat} {t : SegmentType}
    (h : quoteMatchAt s i = some (e, t)) :
    i + 2 ≤ e ∧ e ≤ s.length := by
  rw [quoteMatchAt] at h
  by_cases h1 : charAt s i = some '\'' ∧ unescapedAt s i
  · rw [if_pos h1] at h
    cases hf : findCharFrom s (i + 1) '\'' with
    | none => rw [hf] at h; exact Option.noConfusion h
    | some k =>
      rw [hf] at h
      obtain ⟨hk1, hk2, _, _⟩ := findCharFrom_some hf
      cases h
      omega
  · rw [if_neg h1] at h
    by_cases h2 : charAt s i = some '"' ∧ unescapedAt s i
    · rw [if_pos h2] at h
      cases hf : findUnescDoubleFrom s (i + 1) with
      | none => rw [hf] at h; exact Option.noConfusion h
      | some k =>
        rw [hf] at h
        obtain ⟨hk1, hk2⟩ := findUnescDoubleFrom_some hf
        cases h
        omega
    · rw [if_neg h2] at h; exact Option.noConfusion h

theorem quoteMatchAt_single {s : List Char} {i e : Nat}
    (h : quoteMatchAt s i = some (e, singleQuoted)) :
    charAt s i = some '\'' ∧ unescapedAt s i = true ∧
      charAt s (e - 1) = some '\'' ∧
      ∀ m, i < m → m < e - 1 → charAt s m ≠ some '\'' := by
  rw [quoteMatchAt] at h
  by_cases h1 : charAt s i = some '\'' ∧ unescapedAt s i
  · rw [if_pos h1] at h
    cases hf : findCharFrom s (i + 1) '\'' with
    | none => rw [hf] at h; exact Option.noConfusion h
    | some k =>
      rw [hf] at h
      obtain ⟨hk1, hk2, hk3, hk4⟩ := findCharFrom_some hf
      obtain ⟨rfl, -⟩ : k + 1 = e ∧ True := by cases h; exact ⟨rfl, trivial⟩
      refine ⟨h1.1, h1.2, by simpa using hk3, fun m hm1 hm2 => ?_⟩
      exact hk4 m (by omega) (by omega)
  · rw [if_neg h1] at h
    by_cases h2 : charAt s i = some '"' ∧ unescapedAt s i
    · rw [if_pos h2] at h
      cases hf : findUnescDoubleFrom s (i + 1) with
      | none => rw [hf] at h; exact Option.noConfusion h
      | some k => rw [hf] at h; cases h
    · rw [if_neg h2] at h; exact Option.noConfusion h

theorem findQuote_some {s : List Char} {i p e : Nat} {t : SegmentType}
    (h : findQuote s i = some (p, e, t)) :
    i ≤ p ∧ p + 2 ≤ e ∧ e ≤ s.length ∧
      quoteMatchAt s p = some (e, t) := by
  rw [findQuote] at h
  cases hs : scanFirst (quoteMatchAt s) (s.length - i) i with
  | none => rw [hs] at h; exact Option.noConfusion h
  | some r =>
    rw [hs] at h
    obtain ⟨h1, _, h3, _⟩ := scanFirst_some hs
    cases h
    obtain ⟨hb1, hb2⟩ := quoteMatchAt_some h3
    exact ⟨h1, hb1, hb2, h3⟩

/-! ## The tokenization partition -/

/-- `segsChain l a b`: the segments of `l` tile `[a, b)` exactly — each
is non-empty, starts where its predecessor ended (the first at `a`), and
the last ends at `b`. -/
def segsChain : List Segment → Nat → Nat → Prop
  | [], a, b => a = b
  | seg :: rest, a, b =>
    seg.Position.1 = a ∧ seg.Position.1 < seg.Position.2 ∧
      segsChain rest seg.Position.2 b

theorem tokenizeFrom_chain (s : List Char) :
    ∀ (fuel i : Nat), i ≤ s.length → s.length < i + fuel →
      segsChain (tokenizeFrom s fuel i) i s.length := by
  intro fuel
  induction fuel with
  | zero => intro i h1 h2; omega
  | succ n ih =>
    intro i h1 h2
    rw [tokenizeFrom]
    cases hq : findQuote s i with
    | none =>
      by_cases hi : i = s.length
      · simp only [if_pos hi]; exact hi
      · simp only [if_neg hi]
        refine ⟨rfl, ?_, rfl⟩
        dsimp only
        omega
    | some r =>
      obtain ⟨p, e, t⟩ := r
      obtain ⟨hip, hpe, hel, _⟩ := findQuote_some hq
      have hrest : segsChain (tokenizeFrom s n e) e s.length :=
        ih e (by omega) (by omega)
      by_cases hp : i = p
      · simp only [if_pos hp, List.nil_append]
        refine ⟨hp.symm, ?_, hrest⟩
        dsimp only
        omega
      · simp only [if_neg hp, List.cons_append, List.nil_append]
        refine ⟨rfl, ?_, rfl, ?_, hrest⟩ <;> dsimp only <;> omega

/-- C7: for every input text the tokenizer's segments partition
`[0, len(text))` exactly: the first starts at 0, each segment is
non-empty and starts where the previous one ended, and the last ends at
`len(text)` — no gaps, no overlaps. -/
theorem C7_tokenize_partitions (s : List Char) :
    segsChain (tokenizeByQuotes s) 0 s.length := by
  exact tokenizeFrom_chain s (s.length + 1) 0 (by omega) (by omega)

theorem segsChain_le : ∀ {l : List Segment} {a b : Nat},
    segsChain l a b → a ≤ b := by
  intro l
  induction l with
  | nil => intro a b h; exact Nat.le_of_eq h
  | cons seg rest ih =>
    intro a b h
    obtain ⟨h1, h2, h3⟩ := h
    have := ih h3
    omega

theorem segsChain_mem_bounds : ∀ {l : List Segment} {a b : Nat},
    segsChain l a b → ∀ seg ∈ l,
      a ≤ seg.Position.1 ∧ seg.Position.1 < seg.Position.2 ∧
        seg.Position.2 ≤ b := by
  intro l
  induction l with
  | nil => intro a b _ seg hm; exact absurd hm (List.not_mem_nil seg)
  | cons hd rest ih =>
    intro a b h seg hm
    obtain ⟨h1, h2, h3⟩ := h
    rcases List.mem_cons.mp hm with rfl | hm'
    · exact ⟨Nat.le_of_eq h1.symm, h2, segsChain_le h3⟩
    · obtain ⟨g1, g2, g3⟩ := ih h3 seg hm'
      exact ⟨by omega, g2, g3⟩

theorem segsChain_disjoint : ∀ {l : List Segment} {a b : Nat},
    segsChain l a b → ∀ s1 ∈ l, ∀ s2 ∈ l, ∀ i,
      s1.Position.1 ≤ i → i < s1.Position.2 →
      s2.Position.1 ≤ i → i < s2.Position.2 → s1 = s2 := by
  intro l
  induction l with
  | nil => intro a b _ s1 hm; exact absurd hm (List.not_mem_nil s1)
  | cons hd rest ih =>
    intro a b h s1 hm1 s2 hm2 i hi1 hi2 hi3 hi4
    obtain ⟨h1, h2, h3⟩ := h
    rcases List.mem_cons.mp hm1 with rfl | hm1'
    · rcases List.mem_cons.mp hm2 with rfl | hm2'
      · rfl
      · obtain ⟨g1, -, -⟩ := segsChain_mem_bounds h3 s2 hm2'
        omega
    · rcases List.mem_cons.mp hm2 with rfl | hm2'
      · obtain ⟨g1, -, -⟩ := segsChain_mem_bounds h3 s1 hm1'
        omega
      · exact ih h3 s1 hm1' s2 hm2' i hi1 hi2 hi3 hi4

/-! ## Valid slices exclude single-quoted segments -/

theorem gvsAux_cover : ∀ (segs : List Segment)
    (pend : Option (Nat × Nat)) (lo hi i : Nat),
    (lo, hi) ∈ gvsAux segs pend → lo ≤ i → i < hi →
    (∃ r, pend = some r ∧ r.1 ≤ i ∧ i < r.2) ∨
      ∃ seg ∈ segs, seg.SegmentType ≠ singleQuoted ∧
        seg.Position.1 ≤ i ∧ i < seg.Position.2 := by
  intro segs
  induction segs with
  | nil =>
    intro pend lo hi i hm h1 h2
    cases pend with
    | none => exact absurd hm (List.not_mem_nil _)
    | some r =>
      left
      rcases List.mem_singleton.mp hm with heq
      cases heq
      exact ⟨(lo, hi), rfl, h1, h2⟩
  | cons seg rest ih =>
    intro pend lo hi i hm h1 h2
    cases pend with
    | none =>
      rw [gvsAux] at hm
      by_cases hsq : seg.SegmentType = singleQuoted
      · rw [if_pos hsq] at hm
        rcases ih none lo hi i hm h1 h2 with ⟨r, hr, -, -⟩ | ⟨sg, hsg, hr⟩
        · exact absurd hr (Option.noConfusion)
        · exact Or.inr ⟨sg, List.mem_cons_of_mem seg hsg, hr⟩
      · rw [if_neg hsq] at hm
        rcases ih (some seg.Position) lo hi i hm h1 h2 with
          ⟨r, hr, hr1, hr2⟩ | ⟨sg, hsg, hr⟩
        · cases hr
          exact Or.inr ⟨seg, List.mem_cons_self seg rest, hsq, hr1, hr2⟩
        · exact Or.inr ⟨sg, List.mem_cons_of_mem seg hsg, hr⟩
    | some r =>
      obtain ⟨plo, phi⟩ := r
      rw [gvsAux] at hm
      by_cases hsq : seg.SegmentType = singleQuoted
      · rw [if_pos hsq] at hm
        rcases ih (some (plo, phi)) lo hi i hm h1 h2 with
          ⟨r, hr, hr1, hr2⟩ | ⟨sg, hsg, hr⟩
        · cases hr
          exact Or.inl ⟨(plo, phi), rfl, hr1, hr2⟩
        · exact Or.inr ⟨sg, List.mem_cons_of_mem seg hsg, hr⟩
      · rw [if_neg hsq] at hm
        by_cases hadj : phi = seg.Position.1
        · rw [if_pos hadj] at hm
          rcases ih (some (plo, seg.Position.2)) lo hi i hm h1 h2 with
            ⟨r, hr, hr1, hr2⟩ | ⟨sg, hsg, hr⟩
          · cases hr
            by_cases hsplit : i < phi
            · exact Or.inl ⟨(plo, phi), rfl, hr1, hsplit⟩
            · exact Or.inr ⟨seg, List.mem_cons_self seg rest, hsq,
                by omega, hr2⟩
          · exact Or.inr ⟨sg, List.mem_cons_of_mem seg hsg, hr⟩
        · rw [if_neg hadj] at hm
          rcases List.mem_cons.mp hm with heq | hm'
          · cases heq
            exact Or.inl ⟨(lo, hi), rfl, h1, h2⟩
          · rcases ih (some seg.Position) lo hi i hm' h1 h2 with
              ⟨r, hr, hr1, hr2⟩ | ⟨sg, hsg, hr⟩
            · cases hr
              exact Or.inr ⟨seg, List.mem_cons_self seg rest, hsq, hr1, hr2⟩
            · exact Or.inr ⟨sg, List.mem_cons_of_mem seg hsg, hr⟩

theorem getValidSlices_cover {segs : List Segment} {lo hi i : Nat}
    (hm : (lo, hi) ∈ getValidSlices segs) (h1 : lo ≤ i) (h2 : i < hi) :
    ∃ seg ∈ segs, seg.SegmentType ≠ singleQuoted ∧
      seg.Position.1 ≤ i ∧ i < seg.Position.2 := by
  rcases gvsAux_cover segs none lo hi i hm h1 h2 with ⟨r, hr, -, -⟩ | h
  · exact absurd hr (Option.noConfusion)
  · exact h

theorem findParams_mem_slice {payload : List Char}
    {validSlices : List (Nat × Nat)} {p : Param}
    (h : p ∈ findParams payload validSlices) :
    ∃ slice ∈ validSlices, InRange p.Position.1 slice = true := by
  rw [findParams] at h
  obtain ⟨m, hm, hcond⟩ := List.mem_filterMap.mp h
  by_cases hany : validSlices.any (fun slice => InRange m.1 slice)
  · rw [if_pos hany] at hcond
    obtain ⟨slice, hs1, hs2⟩ := List.any_eq_true.mp hany
    cases hcond
    exact ⟨slice, hs1, hs2⟩
  · rw [if_neg hany] at hcond
    exact Option.noConfusion hcond

/-- C6: with quoting honored, no parameter reference returned by the
finder starts inside a single-quoted segment of the tokenization. -/
theorem C6_no_param_in_single_quotes (payload : List Char) (p : Param)
    (hp : p ∈ findParams payload
      (getValidSlices (tokenizeByQuotes payload)))
    (seg : Segment) (hseg : seg ∈ tokenizeByQuotes payload)
    (hsq : seg.SegmentType = singleQuoted) :
    ¬ (seg.Position.1 ≤ p.Position.1 ∧ p.Position.1 < seg.Position.2) := by
  rintro ⟨hin1, hin2⟩
  obtain ⟨slice, hs1, hs2⟩ := findParams_mem_slice hp
  obtain ⟨lo, hi⟩ := slice
  obtain ⟨hin1', hin2'⟩ : lo ≤ p.Position.1 ∧ p.Position.1 < hi := by
    rw [InRange] at hs2
    constructor <;> [exact of_decide_eq_true (Bool.and_elim_left hs2);
      exact of_decide_eq_true (Bool.and_elim_right hs2)]
  obtain ⟨seg', hseg', hsq', hb1, hb2⟩ :=
    getValidSlices_cover hs1 hin1' hin2'
  have : seg' = seg :=
    segsChain_disjoint
      (tokenizeFrom_chain payload (payload.length + 1) 0 (by omega) (by omega))
      seg' hseg' seg hseg p.Position.1 hb1 hb2 hin1 hin2
  rw [this] at hsq'
  exact hsq' hsq

/-! ## Where single-quoted segments end -/

theorem tokenizeFrom_quoted_origin (s : List Char) :
    ∀ (fuel i : Nat) (seg : Segment), seg ∈ tokenizeFrom s fuel i →
      seg.SegmentType ≠ unQuoted →
      quoteMatchAt s seg.Position.1 = some (seg.Position.2, seg.SegmentType) := by
  intro fuel
  induction fuel with
  | zero =>
    intro i seg hm hne
    rw [tokenizeFrom] at hm
    by_cases hi : i = s.length
    · rw [if_pos hi] at hm; exact absurd hm (List.not_mem_nil seg)
    · rw [if_neg hi] at hm
      rcases List.mem_singleton.mp hm with rfl
      exact absurd rfl hne
  | succ n ih =>
    intro i seg hm hne
    rw [tokenizeFrom] at hm
    cases hq : findQuote s i with
    | none =>
      rw [hq] at hm
      by_cases hi : i = s.length
      · rw [if_pos hi] at hm; exact absurd hm (List.not_mem_nil seg)
      · rw [if_neg hi] at hm
        rcases List.mem_singleton.mp hm with rfl
        exact absurd rfl hne
    | some r =>
      obtain ⟨p, e, t⟩ := r
      rw [hq] at hm
      obtain ⟨-, -, -, hqm⟩ := findQuote_some hq
      rcases List.mem_append.mp hm with hgap | hrest
      · by_cases hp : i = p
        · rw [if_pos hp] at hgap; exact absurd hgap (List.not_mem_nil seg)
        · rw [if_neg hp] at hgap
          rcases List.mem_singleton.mp hgap with rfl
          exact absurd rfl hne
      · rcases List.mem_cons.mp hrest with rfl | hm'
        · exact hqm
        · exact ih e seg hm' hne

/-- C5 amended: a single-quoted segment starts at an unescaped `'` and
ends at the very next `'` in the text, whether or not that closing quote
is preceded by an odd run of backslashes (the closing delimiter is *any*
single quote, per the tokenizer's own comment and
`TestEscapedSingleQuoteInSingleQuotes`). -/
theorem C5_amended_close_any_quote (s : List Char) (seg : Segment)
    (hm : seg ∈ tokenizeByQuotes s)
    (hsq : seg.SegmentType = singleQuoted) :
    charAt s seg.Position.1 = some '\'' ∧
      unescapedAt s seg.Position.1 = true ∧
      charAt s (seg.Position.2 - 1) = some '\'' ∧
      ∀ m, seg.Position.1 < m → m < seg.Position.2 - 1 →
        charAt s m ≠ some '\'' := by
  have h := tokenizeFrom_quoted_origin s (s.length + 1) 0 seg hm
    (by rw [hsq]; intro hc; exact SegmentType.noConfusion hc)
  rw [hsq] at h
  exact quoteMatchAt_single h

/-- C5 counterexample: on the input `'\''` (from
`TestEscapedSingleQuoteInSingleQuotes`) the tokenizer produces the
single-quoted segment `[0, 3)` whose closing delimiter at index 2 is
preceded by one backslash — an odd count — refuting the claim that every
closing delimiter of a SingleQuoted segment carries an even backslash
count. -/
theorem C5_counterexample :
    ¬ (∀ seg ∈ tokenizeByQuotes ['\'', '\\', '\'', '\''],
      seg.SegmentType = singleQuoted →
        bsCountBefore ['\'', '\\', '\'', '\''] (seg.Position.2 - 1) % 2 = 0) := by
  decide

/-- Witness for the C5 amended theorem at the test input `'\''`: its
single-quoted segment `[0, 3)` opens and closes on a quote with no
quote strictly inside. -/
theorem C5_amended_close_any_quote_witness :
    (⟨(0, 3), singleQuoted⟩ : Segment) ∈
        tokenizeByQuotes ['\'', '\\', '\'', '\''] ∧
      charAt ['\'', '\\', '\'', '\''] 0 = some '\'' ∧
      charAt ['\'', '\\', '\'', '\''] 2 = some '\'' := by
  refine ⟨by decide, ?_, ?_⟩
  · exact (C5_amended_close_any_quote ['\'', '\\', '\'', '\'']
      ⟨(0, 3), singleQuoted⟩ (by decide) rfl).1
  · exact (C5_amended_close_any_quote ['\'', '\\', '\'', '\'']
      ⟨(0, 3), singleQuoted⟩ (by decide) rfl).2.2.1

/-- Witness for C6 at the `TestFindParamsWithQuotesInParams` payload
`foo${BAR:-'baz'}foo`: the discovered reference `${BAR:-'baz'}` starts
at 3, outside the single-quoted segment `[10, 15)`. -/
theorem C6_no_param_in_single_quotes_witness :
    (⟨"$\x7bBAR:-'baz'\x7d".toList, (3, 16)⟩ : Param) ∈
        findParams "foo$\x7bBAR:-'baz'\x7dfoo".toList
          (getValidSlices (tokenizeByQuotes "foo$\x7bBAR:-'baz'\x7dfoo".toList)) ∧
      (⟨(10, 15), singleQuoted⟩ : Segment) ∈
        tokenizeByQuotes "foo$\x7bBAR:-'baz'\x7dfoo".toList ∧
      ¬ (10 ≤ 3 ∧ (3 : Nat) < 15) := by
  refine ⟨by decide, by decide, ?_⟩
  exact C6_no_param_in_single_quotes "foo$\x7bBAR:-'baz'\x7dfoo".toList
    ⟨"$\x7bBAR:-'baz'\x7d".toList, (3, 16)⟩ (by decide)
    ⟨(10, 15), singleQuoted⟩ (by decide) rfl

/-- C8: a document in which the finder discovers no reference expands to
itself, unchanged. -/
theorem C8_identity_without_refs (env : Env) (payload : List Char)
    (preserve ignoreQuotes : Bool)
    (h : findParams payload (validSlicesOf ignoreQuotes payload) = []) :
    GetOutput env payload preserve ignoreQuotes = .ok payload := by
  rw [GetOutput, h]
  rfl

/-- Witness for C8 at the reference-free `TestOutputWithParamlessFile`
document. -/
theorem C8_identity_without_refs_witness :
    findParams "Lorem ipsum dolor sit amet\n".toList
        (validSlicesOf false "Lorem ipsum dolor sit amet\n".toList) = [] ∧
      GetOutput [] "Lorem ipsum dolor sit amet\n".toList false false =
        .ok "Lorem ipsum dolor sit amet\n".toList := by
  refine ⟨by decide, ?_⟩
  exact C8_identity_without_refs [] "Lorem ipsum dolor sit amet\n".toList
    false false (by decide)

/-- The environment of the §4.4/§8 operator truth table: `FOO=foo`,
`BAZ` set but empty, `BAR` unset. -/
def truthTableEnv : Env :=
  [("FOO".toList, "foo".toList), ("BAZ".toList, [])]

/-- C1: the eight rows of the operator truth table under `FOO=foo`,
`BAZ=""`, `BAR` unset: `${FOO:-bar}`→`foo`, `${BAZ:-bar}`→`bar`,
`${BAZ-bar}`→`""`, `${FOO:+bar}`→`bar`, `${BAR:+bar}`→`""`,
`${BAZ+bar}`→`bar`, `${BAR:?bar}` fails with message `bar`, and
`${BAZ?bar}`→`""`. -/
theorem C1_operator_truth_table :
    parseParam truthTableEnv "${FOO:-bar}".toList = .ok "foo".toList ∧
      parseParam truthTableEnv "${BAZ:-bar}".toList = .ok "bar".toList ∧
      parseParam truthTableEnv "${BAZ-bar}".toList = .ok [] ∧
      parseParam truthTableEnv "${FOO:+bar}".toList = .ok "bar".toList ∧
      parseParam truthTableEnv "${BAR:+bar}".toList = .ok [] ∧
      parseParam truthTableEnv "${BAZ+bar}".toList = .ok "bar".toList ∧
      parseParam truthTableEnv "${BAR:?bar}".toList = .error "bar".toList ∧
      parseParam truthTableEnv "${BAZ?bar}".toList = .ok [] := by
  decide

/-- C10: the resolver expands at most the first reference of its input:
whenever the finder matches `[st, stop)` first, the result (when
resolution does not fail) is the untouched prefix, a replacement value,
and the untouched suffix — so in `$X $Y` the second reference survives
verbatim, as the concrete conjunct shows. -/
theorem C10_first_ref_only :
    (∀ (env : Env) (n : Nat) (s : List Char) (st stop : Nat)
      (k : MatchKind), findParamFrom s 0 = some (st, stop, k) →
      (∃ e, parseParamF env (n + 1) s = .error e) ∨
        ∃ v, parseParamF env (n + 1) s =
          .ok (listSlice s 0 st ++ v ++ s.drop stop)) ∧
    parseParam [("X".toList, "1".toList), ("Y".toList, "2".toList)]
      "$X $Y".toList = .ok "1 $Y".toList := by
  constructor
  · intro env n s st stop k h
    rw [parseParamF, h]
    dsimp only
    cases hr : resolveFound env (parseParamF env n) s st stop k with
    | error e => exact Or.inl ⟨e, rfl⟩
    | ok v => exact Or.inr ⟨v, rfl⟩
  · decide

/-- Witness for C10 at `$X $Y` with `X=1`, `Y=2`: the finder's first
match is the bare `$X` over `[0, 2)`. -/
theorem C10_first_ref_only_witness :
    (∃ e, parseParamF [("X".toList, "1".toList), ("Y".toList, "2".toList)]
        6 "$X $Y".toList = .error e) ∨
      ∃ v, parseParamF [("X".toList, "1".toList), ("Y".toList, "2".toList)]
        6 "$X $Y".toList =
          .ok (listSlice "$X $Y".toList 0 0 ++ v ++ "$X $Y".toList.drop 2) :=
  C10_first_ref_only.1 _ 5 "$X $Y".toList 0 2 (.bare "X".toList) (by decide)

/-- C2: when a braced reference with an error-family operator takes its
fallback branch (`handleDefaults` reports `failing`), the resolver fails
with the recursively-resolved default text as the message, and a failing
resolution makes the whole document expansion return an error — the
value map is completed before any output is assembled, so nothing is
emitted. -/
theorem C2_error_operator_aborts :
    (∀ (env : Env) (n : Nat) (s : List Char) (st stop : Nat)
      (name op dv v msg : List Char),
      findParamFrom s 0 = some (st, stop, .braced name) →
      parserFind (listSlice s st stop) = some (some (op, dv)) →
      handleDefaults env op name = (v, false, true) →
      parseEmbeddedParams env n dv = .ok msg →
      parseParamF env (n + 1) s = .error msg) ∧
    (∀ (env : Env) (payload : List Char) (preserve ignoreQuotes : Bool)
      (e : List Char),
      mapperHandler env
          (findParams payload (validSlicesOf ignoreQuotes payload)) =
        .error e →
      GetOutput env payload preserve ignoreQuotes = .error e) := by
  constructor
  · intro env n s st stop name op dv v msg h1 h2 h3 h4
    rw [parseEmbeddedParams] at h4
    have hr : resolveFound env (parseParamF env n) s st stop
        (.braced name) = .error msg := by
      rw [resolveFound, h2]
      simp only [h3, h4]
      rfl
    rw [parseParamF, h1]
    dsimp only
    rw [hr]
  · intro env payload preserve ignoreQuotes e h
    rw [GetOutput]
    by_cases hemp :
        (findParams payload (validSlicesOf ignoreQuotes payload)).isEmpty
    · rw [List.isEmpty_iff] at hemp
      rw [hemp] at h
      exact absurd h (by rw [mapperHandler]; exact fun hc => Except.noConfusion hc)
    · simp only [hemp, if_false, h]
      rfl

/-- Witness for C2 at `${BAR:?bar}` with `BAR` unset: the fallback of
`:?` is taken, resolution fails with message `bar`, and the document
consisting of exactly this reference expands to that error. -/
theorem C2_error_operator_aborts_witness :
    parseParamF [] 11 "${BAR:?bar}".toList = .error "bar".toList ∧
      GetOutput [] "${BAR:?bar}".toList false false =
        .error "bar".toList := by
  constructor
  · exact C2_error_operator_aborts.1 [] 10 "${BAR:?bar}".toList 0 11
      "BAR".toList ":?".toList "bar".toList [] "bar".toList
      (by decide) (by decide) (by decide) (by decide)
  · exact C2_error_operator_aborts.2 [] "${BAR:?bar}".toList false false
      "bar".toList (by decide)

/-! ## Braced references with unrecognized trailing text -/

theorem countWhile_run (s : List Char) :
    ∀ (len0 i fuel : Nat),
      (∀ j, j < len0 → ∃ d, charAt s (i + j) = some d ∧ isNameChar d = true) →
      (∀ d, charAt s (i + len0) = some d → isNameChar d = false) →
      len0 < fuel →
      countWhile
        (fun k => match charAt s k with
          | some d => isNameChar d
          | none => false)
        fuel i = len0 := by
  intro len0
  induction len0 with
  | zero =>
    intro i fuel hin hout hf
    cases fuel with
    | zero => omega
    | succ m =>
      rw [countWhile]
      cases hc : charAt s i with
      | none => simp only [hc]; rfl
      | some d =>
        have := hout d (by rw [Nat.add_zero]; exact hc)
        simp only [hc, this]
        rfl
  | succ len0 ih =>
    intro i fuel hin hout hf
    cases fuel with
    | zero => omega
    | succ m =>
      rw [countWhile]
      obtain ⟨d, hd, hdn⟩ := hin 0 (by omega)
      rw [Nat.add_zero] at hd
      have hrec := ih (i + 1) m
        (fun j hj => by
          obtain ⟨d', hd', hdn'⟩ := hin (j + 1) (by omega)
          exact ⟨d', by rw [show i + 1 + j = i + (j + 1) by omega]; exact hd', hdn'⟩)
        (fun d' hd' => hout d' (by rw [show i + (len0 + 1) = i + 1 + len0 by omega]; exact hd'))
        (by omega)
      simp only [hd, hdn, hrec]
      rw [if_pos trivial]

theorem scanBraced_run (s : List Char) :
    ∀ (len0 i fuel : Nat),
      (∀ j, j < len0 → ∃ d, charAt s (i + j) = some d ∧ d ≠ '$' ∧ d ≠ '}') →
      charAt s (i + len0) = some '}' →
      len0 < fuel →
      scanBraced s fuel i 0 = some (i + len0 + 1) := by
  intro len0
  induction len0 with
  | zero =>
    intro i fuel hin hclose hf
    cases fuel with
    | zero => omega
    | succ m =>
      rw [Nat.add_zero] at hclose
      rw [scanBraced, hclose]
      simp
  | succ len0 ih =>
    intro i fuel hin hclose hf
    cases fuel with
    | zero => omega
    | succ m =>
      obtain ⟨d, hd, hd1, hd2⟩ := hin 0 (by omega)
      rw [Nat.add_zero] at hd
      have hnext : charAt s (i + 1) ≠ some '$' := by
        cases hl : len0 with
        | zero =>
          intro hc
          rw [show i + 1 = i + (0 + 1) by omega, ← hl] at hc
          rw [hc] at hclose
          exact absurd (Option.some.inj hclose) (by decide)
        | succ l =>
          intro hc
          obtain ⟨d', hd', hd1', -⟩ := hin 1 (by omega)
          rw [hd'] at hc
          exact hd1' (Option.some.inj hc)
      have hrec := ih (i + 1) m
        (fun j hj => by
          obtain ⟨d', hd', hp⟩ := hin (j + 1) (by omega)
          exact ⟨d', by rw [show i + 1 + j = i + (j + 1) by omega]; exact hd', hp⟩)
        (by rw [show i + 1 + len0 = i + (len0 + 1) by omega]; exact hclose)
        (by omega)
      rw [scanBraced, hd]
      dsimp only
      rw [if_neg hd2, if_neg hd1,
        if_neg (by rintro ⟨-, -, hc⟩; exact hnext hc), hrec]
      congr 1
      omega

theorem charAt_append_shift (pre rest : List Char) (j : Nat) :
    charAt (pre ++ rest) (pre.length + j) = charAt rest j := by
  rw [charAt, charAt, List.getElem?_append_right (by omega)]
  congr 1
  omega

theorem listSlice_of_all (s : List Char) : listSlice s 0 s.length = s := by
  rw [listSlice, List.drop_zero, Nat.sub_zero, List.take_length]

/-- C9 amended (the trailing text may not smuggle in an operator match):
a braced occurrence `${NAME…}` whose content after the name contains no
`$` or `}` is still emitted by the finder as one reference ending at its
closing brace; and whenever the operator parser finds no default
operator anywhere in a braced reference's text — as for `${FOO#foo}` or
`${FOO%%foo}` — resolving it returns the variable's current value (empty
when unset), silently discarding the unrecognized trailing text. -/
theorem C9_amended_unknown_operator_ignored :
    (∀ (c : Char) (cs content : List Char),
      isNameStart c = true →
      (∀ d ∈ cs, isNameChar d = true) →
      (∀ d, content.head? = some d → isNameChar d = false) →
      (∀ d ∈ content, d ≠ '$' ∧ d ≠ '}') →
      paramMatchAt ('$' :: '{' :: ((c :: cs) ++ content ++ ['}'])) 0 =
        some (cs.length + content.length + 4, .braced (c :: cs))) ∧
    (∀ (env : Env) (n : Nat) (s : List Char) (name : List Char),
      paramMatchAt s 0 = some (s.length, .braced name) →
      (parserFind s = none ∨ parserFind s = some none) →
      parseParamF env (n + 1) s = .ok (getenv env name)) := by
  constructor
  · intro c cs content hc hcs hhead hcontent
    have hs : ('$' :: '{' :: ((c :: cs) ++ content ++ ['}']) : List Char) =
        ('$' :: '{' :: [c]) ++ (cs ++ (content ++ ['}'])) := by simp
    generalize hgen :
      ('$' :: '{' :: ((c :: cs) ++ content ++ ['}']) : List Char) = s
    rw [hgen] at hs
    have hlen : s.length = cs.length + content.length + 4 := by
      rw [← hgen]
      simp
      omega
    have h0 : charAt s 0 = some '$' := by rw [← hgen]; rfl
    have h1 : charAt s 1 = some '{' := by rw [← hgen]; rfl
    have hname1 : nameLenAt s 1 = 0 := by
      rw [nameLenAt, h1]
      dsimp only
      rw [if_neg (by decide)]
    have h2 : charAt s 2 = some c := by rw [← hgen]; simp [charAt]
    have htail : ∀ j, charAt s (3 + j) = charAt (cs ++ (content ++ ['}'])) j := by
      intro j
      rw [hs, show (3 : Nat) + j = ('$' :: '{' :: [c] : List Char).length + j
        by simp]
      exact charAt_append_shift _ _ j
    have hcount : countWhile
        (fun k => match charAt s k with
          | some d => isNameChar d
          | none => false)
        (s.length - 3) 3 = cs.length := by
      apply countWhile_run
      · intro j hj
        refine ⟨cs[j], ?_, hcs cs[j] (cs.getElem_mem hj)⟩
        rw [htail j, charAt, List.getElem?_append_left hj]
        exact List.getElem?_eq_getElem hj
      · intro d hd
        rw [htail cs.length, charAt,
          List.getElem?_append_right (Nat.le_refl _), Nat.sub_self] at hd
        cases content with
        | nil =>
          simp [charAt] at hd
          rw [← hd]
          decide
        | cons h t =>
          exact hhead d (by simpa using hd)
      · omega
    have hname2 : nameLenAt s 2 = Nat.succ cs.length := by
      rw [nameLenAt, h2]
      dsimp only
      rw [if_pos hc, show (2 : Nat) + 1 = 3 from rfl, hcount]
      omega
    have hsh : ∀ j, charAt s (cs.length + 3 + j) =
        charAt (content ++ ['}']) j := by
      intro j
      have hs2 : s = ('$' :: '{' :: (c :: cs)) ++ (content ++ ['}']) := by
        rw [← hgen]
        simp
      rw [hs2, show cs.length + 3 + j =
        ('$' :: '{' :: (c :: cs) : List Char).length + j by simp]
      exact charAt_append_shift _ _ j
    have hscan : scanBraced s s.length (2 + (cs.length + 1)) 0 =
        some (s.length) := by
      have hrun := scanBraced_run s content.length (cs.length + 3) s.length
        (fun j hj => by
          refine ⟨content[j], ?_,
            (hcontent content[j] (content.getElem_mem hj)).1,
            (hcontent content[j] (content.getElem_mem hj)).2⟩
          rw [hsh j, charAt, List.getElem?_append_left hj]
          exact List.getElem?_eq_getElem hj)
        (by
          rw [hsh content.length, charAt,
            List.getElem?_append_right (Nat.le_refl _), Nat.sub_self]
          rfl)
        (by omega)
      rw [show 2 + (cs.length + 1) = cs.length + 3 by omega, hrun, hlen]
      congr 1
      omega
    have hslice : listSlice s 2 (2 + (cs.length + 1)) = c :: cs := by
      rw [listSlice]
      have hdrop : s.drop 2 = (c :: cs) ++ (content ++ ['}']) := by
        rw [← hgen]
        simp
      rw [hdrop, show 2 + (cs.length + 1) - 2 = (c :: cs : List Char).length
        by simp]
      exact List.take_left (c :: cs) (content ++ ['}'])
    rw [paramMatchAt]
    rw [if_pos (⟨h0, by rw [← hgen]; rfl⟩ :
        charAt s 0 = some '$' ∧ unescapedAt s 0 = true)]
    rw [show (0 : Nat) + 1 = 1 from rfl, hname1]
    dsimp only
    rw [if_pos h1]
    rw [show (0 : Nat) + 2 = 2 from rfl, hname2]
    dsimp only
    rw [hscan]
    simp [hslice, hlen]
  · intro env n s name hm hpf
    have hdollar : charAt s 0 = some '$' := by
      by_cases hd : charAt s 0 = some '$' ∧ unescapedAt s 0
      · exact hd.1
      · rw [paramMatchAt, if_neg hd] at hm
        exact absurd hm (Option.noConfusion)
    have hfind : findParamFrom s 0 = some (0, s.length, .braced name) := by
      rw [findParamFrom, Nat.sub_zero, scanFirst_hit hm (charAt_lt hdollar)]
      rfl
    have hres : resolveFound env (parseParamF env n) s 0 s.length
        (.braced name) = .ok (getenv env name) := by
      rw [resolveFound, listSlice_of_all]
      rcases hpf with hpf | hpf <;> rw [hpf]
    rw [parseParamF, hfind]
    dsimp only
    rw [hres]
    dsimp only [listSlice]
    rw [List.drop_zero, List.take_zero, List.drop_length,
      List.nil_append, List.append_nil]

/-- C9 counterexample: `${FOO#${BAR:-x}}` (content after the name
non-empty and not starting with an operator) is emitted whole by the
finder, but with `FOO` and `BAR` unset it resolves to `x}` — the
operator parser matches `${BAR:-x}}` at an inner offset and applies `:-`
on `FOO` — not to `FOO`'s current value, the empty string. -/
theorem C9_counterexample :
    findParams "$\x7bFOO#$\x7bBAR:-x\x7d\x7d".toList [(0, 16)] =
        [⟨"$\x7bFOO#$\x7bBAR:-x\x7d\x7d".toList, (0, 16)⟩] ∧
      parseParam [] "$\x7bFOO#$\x7bBAR:-x\x7d\x7d".toList = .ok "x\x7d".toList ∧
      getenv [] "FOO".toList = [] ∧
      "x\x7d".toList ≠ ([] : List Char) := by
  decide

/-- Witness for the C9 amended theorem at `${FOO#foo}` (from
`TestFindParamsInOnlyParams`) with `FOO=foo`: the finder emits the whole
reference, the operator parser finds nothing, and resolution returns
`foo`. -/
theorem C9_amended_unknown_operator_ignored_witness :
    paramMatchAt ('$' :: '{' :: (('F' :: "OO".toList) ++ "#foo".toList ++ ['}']))
        0 = some ("OO".toList.length + "#foo".toList.length + 4,
          .braced ('F' :: "OO".toList)) ∧
      parseParamF [("FOO".toList, "foo".toList)] 10 "$\x7bFOO#foo\x7d".toList =
        .ok (getenv [("FOO".toList, "foo".toList)] "FOO".toList) := by
  constructor
  · exact C9_amended_unknown_operator_ignored.1 'F' "OO".toList "#foo".toList
      (by decide) (by decide) (by decide) (by decide)
  · exact C9_amended_unknown_operator_ignored.2
      [("FOO".toList, "foo".toList)] 9 "$\x7bFOO#foo\x7d".toList "FOO".toList
      (by decide) (Or.inl (by decide))

/-! ## The value map resolves each distinct reference once -/

theorem aaLookup_cons (k id v : List Char) (values : AssocArray) :
    aaLookup ((k, v) :: values) id =
      if k = id then some v else aaLookup values id := by
  by_cases h : k = id
  · rw [if_pos h, aaLookup, List.find?]
    simp [h]
  · rw [if_neg h, aaLookup, List.find?]
    rw [decide_eq_false h]
    rfl

theorem mapParamValuesAux_preserves
    (parser : List Char → List Char) :
    ∀ (params : List Param) (values : AssocArray) (id v : List Char),
      aaLookup values id = some v →
      aaLookup (mapParamValuesAux parser params values).1 id = some v := by
  intro params
  induction params with
  | nil => intro values id v h; exact h
  | cons p rest ih =>
    intro values id v h
    rw [mapParamValuesAux]
    by_cases hp : (aaLookup values p.Id).isSome
    · rw [if_pos hp]
      exact ih values id v h
    · rw [if_neg hp]
      refine ih _ id v ?_
      rw [aaLookup_cons]
      rw [if_neg ?_]
      · exact h
      · intro hc
        rw [hc, h] at hp
        exact hp rfl

theorem mapParamValuesAux_values
    (parser : List Char → List Char) :
    ∀ (params : List Param) (values : AssocArray),
      (∀ id v, aaLookup values id = some v → v = parser id) →
      ∀ p ∈ params,
        aaLookup (mapParamValuesAux parser params values).1 p.Id =
          some (parser p.Id) := by
  intro params
  induction params with
  | nil => intro values _ p hm; exact absurd hm (List.not_mem_nil p)
  | cons q rest ih =>
    intro values hinv p hm
    rw [mapParamValuesAux]
    by_cases hq : (aaLookup values q.Id).isSome
    · rw [if_pos hq]
      rcases List.mem_cons.mp hm with rfl | hm'
      · obtain ⟨v, hv⟩ := Option.isSome_iff_exists.mp hq
        rw [hinv p.Id v hv] at hv
        exact mapParamValuesAux_preserves parser rest values p.Id _ hv
      · exact ih values hinv p hm'
    · rw [if_neg hq]
      have hinv' : ∀ id v,
          aaLookup ((q.Id, parser q.Id) :: values) id = some v →
            v = parser id := by
        intro id v hv
        rw [aaLookup_cons] at hv
        by_cases hqe : q.Id = id
        · rw [if_pos hqe] at hv
          cases hv
          rw [hqe]
        · rw [if_neg hqe] at hv
          exact hinv id v hv
      rcases List.mem_cons.mp hm with rfl | hm'
      · refine mapParamValuesAux_preserves parser rest _ p.Id _ ?_
        rw [aaLookup_cons, if_pos rfl]
      · exact ih _ hinv' p hm'

theorem mapParamValuesAux_calls
    (parser : List Char → List Char) :
    ∀ (params : List Param) (values : AssocArray) (bs : List (List Char)),
      (∀ id, (aaLookup values id).isSome = bs.elem id) →
      List.eraseDups.loop (params.map (fun p => p.Id)) bs =
        bs.reverse ++ (mapParamValuesAux parser params values).2 := by
  intro params
  induction params with
  | nil =>
    intro values bs hinv
    rw [List.map_nil, List.eraseDups.loop, mapParamValuesAux,
      List.append_nil]
  | cons p rest ih =>
    intro values bs hinv
    rw [List.map_cons, List.eraseDups.loop, mapParamValuesAux]
    cases helem : bs.elem p.Id with
    | true =>
      have : (aaLookup values p.Id).isSome = true := by rw [hinv, helem]
      rw [if_pos this]
      exact ih values bs hinv
    | false =>
      have hnone : ¬ (aaLookup values p.Id).isSome = true := by
        rw [hinv, helem]
        exact Bool.noConfusion
      rw [if_neg hnone]
      have hinv' : ∀ id,
          (aaLookup ((p.Id, parser p.Id) :: values) id).isSome =
            (p.Id :: bs).elem id := by
        intro id
        rw [aaLookup_cons, List.elem_cons]
        by_cases hpe : p.Id = id
        · rw [if_pos hpe]
          have : (id == p.Id) = true := by
            rw [beq_iff_eq]
            exact hpe.symm
          rw [this]
          rfl
        · rw [if_neg hpe]
          have : (id == p.Id) = false := by
            rw [beq_eq_false_iff_ne]
            exact fun hc => hpe hc.symm
          rw [this, hinv]
      rw [ih _ (p.Id :: bs) hinv', List.reverse_cons, List.append_assoc]
      rfl

/-- C3: building the value map invokes the resolver exactly once per
distinct reference text, on its first occurrence (the invocation
sequence is the reference list with later duplicates erased), and every
occurrence of a reference text looks up that single resolved value. -/
theorem C3_map_resolves_once_first_occurrence
    (params : List Param) (parser : List Char → List Char) :
    mapParamCalls params parser =
        (params.map (fun p => p.Id)).eraseDups ∧
      ∀ p ∈ params,
        aaLookup (mapParamValues params parser) p.Id =
          some (parser p.Id) := by
  constructor
  · rw [mapParamCalls, List.eraseDups,
      mapParamValuesAux_calls parser params [] [] (fun id => rfl),
      List.reverse_nil, List.nil_append]
  · intro p hm
    exact mapParamValuesAux_values parser params []
      (fun id v hv => absurd hv (by rw [aaLookup]; exact Option.noConfusion))
      p hm

/-- Witness for C3 at the `TestRepeatingMapParamValues` reference list
`$FOO, $FOO, $BAR, $FOO, $FOO`: the parser is invoked on `$FOO` and
`$BAR` only, in first-occurrence order, and every occurrence looks up
the parsed value. -/
theorem C3_map_resolves_once_first_occurrence_witness :
    mapParamCalls
        [⟨"$FOO".toList, (0, 0)⟩, ⟨"$FOO".toList, (0, 0)⟩,
          ⟨"$BAR".toList, (0, 0)⟩, ⟨"$FOO".toList, (0, 0)⟩,
          ⟨"$FOO".toList, (0, 0)⟩] (fun _ => "foo".toList) =
        ["$FOO".toList, "$BAR".toList] ∧
      aaLookup
        (mapParamValues
          [⟨"$FOO".toList, (0, 0)⟩, ⟨"$FOO".toList, (0, 0)⟩,
            ⟨"$BAR".toList, (0, 0)⟩, ⟨"$FOO".toList, (0, 0)⟩,
            ⟨"$FOO".toList, (0, 0)⟩] (fun _ => "foo".toList))
        "$BAR".toList = some "foo".toList := by
  constructor
  · rw [(C3_map_resolves_once_first_occurrence _ (fun _ => "foo".toList)).1]
    decide
  · exact (C3_map_resolves_once_first_occurrence _ (fun _ => "foo".toList)).2
      ⟨"$BAR".toList, (0, 0)⟩ (by decide)

end Parry
